import Mathlib

/-!
Verification of `rrng.py`, a reversible linear congruential generator (LCG).

The embedding models Python integers as `Int`.  Facts about Python semantics
used when translating:

* for a modulus `m` that passes the constructor check (`m = 0` or `m = 2 ^ k`),
  the Python expression `v & (m - 1)` on arbitrary integers equals the residue
  `v % m` as computed by `Int.emod` (for `m = 2 ^ k` the mask keeps the low `k`
  bits of the two's-complement representation, which is the non-negative
  residue; for `m = 0` the mask is `& -1`, the identity, and `Int.emod v 0 = v`);
* Python `>>` on integers is floor division by the corresponding power of two,
  which is `Int.fdiv`;
* Python `&` on arbitrary (possibly negative) integers is two's-complement
  bitwise and, which is `Int.land`.

The bulk method `random` builds a numpy `uint64` array from the generator
states; with the default parameters every state lies in `[0, 2^63)`, so the
`uint64` conversion is the identity and the array is modelled as `List Int`.
Negative `size` arguments (on which `np.fromiter` would consume the infinite
generator without terminating) are outside the model: `size` is an
`Option Nat`.
-/

/-- Python `is_power_of_two(x)`: `(x & (x - 1)) == 0` on arbitrary integers. -/
def is_power_of_two (x : Int) : Bool := Int.land x (x - 1) == 0

/-- Loop of Python `xgcd_x`: state `(a, b, x_prev, x)`; while `b` is nonzero,
set `q = a // b`, then `(x, x_prev) = (x_prev - q * x, x)` and
`(a, b) = (b, a % b)`; on exit return `x_prev`.  The function is only ever
called with non-negative arguments, on which Python `//` and `%` agree with
`Nat` division and modulus; the Bezout coefficients may be negative and are
kept as `Int`. -/
def xgcdLoop (a b : Nat) (xPrev x : Int) : Int :=
  if _h : b = 0 then xPrev
  else xgcdLoop b (a % b) x (xPrev - (a / b : Nat) * x)
termination_by b
decreasing_by exact Nat.mod_lt _ (Nat.pos_of_ne_zero _h)

/-- Python `xgcd_x(a, b)`: the Bezout coefficient `x` in
`a*x + b*y = gcd(a, b)`, by the extended Euclidean algorithm. -/
def xgcd_x (a b : Nat) : Int := xgcdLoop a b 1 0

/-- Python `get_a_inverse_value(a, b)`: a memoising wrapper around `xgcd_x`.
The module-level cache `a_inverse_stored` is keyed by `(a, b)` and only ever
stores `xgcd_x a b`, so the wrapper is semantically the function itself. -/
def get_a_inverse_value (a b : Nat) : Int := xgcd_x a b

/-- Default modulus `m = 1 << 63` of `ReversibleLCG.__init__`. -/
def default_m : Int := 2 ^ 63

/-- Default multiplier `a` of `ReversibleLCG.__init__`. -/
def default_a : Int := 6364136223846793005

/-- Default increment `c` of `ReversibleLCG.__init__`. -/
def default_c : Int := 1442695040888963407

/-- Default number `d` of discarded low bits of `ReversibleLCG.__init__`. -/
def default_d : Nat := 32

/-- The backward-stepping coefficient computed at construction for the
default parameters: `get_a_inverse_value(a, m)`. -/
def default_a_inverse : Int := get_a_inverse_value 6364136223846793005 (2 ^ 63)

/-- The fields of a constructed `ReversibleLCG` object: parameters
`m, a, c, d`, the derived backward coefficient `a_inverse`, the current
state `x` and the direction flag `forward`. -/
structure ReversibleLCG where
  x : Int
  m : Int
  a : Int
  c : Int
  d : Nat
  a_inverse : Int
  forward : Bool
deriving DecidableEq

/-- Python `ReversibleLCG.__init__(seed, m, a, c, d)`: stores `x = seed`
unmasked, asserts `is_power_of_two(m)` (an `AssertionError` when it fails),
computes `a_inverse = get_a_inverse_value(a, m)` and sets `forward = True`.
All real call sites pass non-negative `a` and `m`, matching the `Nat`
domain of the embedded `xgcd_x`. -/
def ReversibleLCG.init (seed m a c : Int) (d : Nat) : Except String ReversibleLCG :=
  if is_power_of_two m then
    .ok { x := seed, m := m, a := a, c := c, d := d,
          a_inverse := get_a_inverse_value a.toNat m.toNat, forward := true }
  else
    .error "`m` must be a power of two."

/-- A `ReversibleLCG(seed)` built with the default parameters (the assertion
passes: `2 ^ 63` is a power of two, see `mk_default_init`). -/
def mk_default (seed : Int) : ReversibleLCG :=
  { x := seed, m := default_m, a := default_a, c := default_c, d := default_d,
    a_inverse := default_a_inverse, forward := true }

/-- Python `GeneratorLCGReversible.__init__(seed)`: calls the parent
constructor with the default parameters. -/
def GeneratorLCGReversible (seed : Int) : ReversibleLCG := mk_default seed

/-- Python `ReversibleLCG._next_state`: `(a * x + c) & (m - 1)`. -/
def ReversibleLCG.next_state (g : ReversibleLCG) : Int := (g.a * g.x + g.c) % g.m

/-- Python `ReversibleLCG._prev_state`: `a_inverse * (x - c) & (m - 1)`
(in Python `*` binds tighter than `&`). -/
def ReversibleLCG.prev_state (g : ReversibleLCG) : Int := (g.a_inverse * (g.x - g.c)) % g.m

/-- Python `ReversibleLCG.next`: commit the forward state transition and
return the truncated new state `x >> d`. -/
def ReversibleLCG.next (g : ReversibleLCG) : Int × ReversibleLCG :=
  (Int.fdiv g.next_state (2 ^ g.d), { g with x := g.next_state })

/-- Python `ReversibleLCG.prev`: commit the backward state transition and
return the truncated new state `x >> d`. -/
def ReversibleLCG.prev (g : ReversibleLCG) : Int × ReversibleLCG :=
  (Int.fdiv g.prev_state (2 ^ g.d), { g with x := g.prev_state })

/-- Python `ReversibleLCG.reverse`: flip the direction flag. -/
def ReversibleLCG.reverse (g : ReversibleLCG) : ReversibleLCG :=
  { g with forward := !g.forward }

/-- Python `ReversibleLCG.__next__`: dispatch on the direction flag. -/
def ReversibleLCG.dunder_next (g : ReversibleLCG) : Int × ReversibleLCG :=
  if g.forward then g.next else g.prev

/-- The first `n` states yielded by the Python generator function
`GeneratorLCGReversible._next_state_generator(x, m, a, c)`
(`np.fromiter(gen, count=n)` takes exactly the first `n` yields). -/
def next_state_generator (x m a c : Int) : Nat → List Int
  | 0 => []
  | n + 1 =>
    let x1 := (a * x + c) % m
    x1 :: next_state_generator x1 m a c n

/-- The first `n` states yielded by the Python generator function
`GeneratorLCGReversible._prev_state_generator(x, m, a_inverse, c)`. -/
def prev_state_generator (x m a_inverse c : Int) : Nat → List Int
  | 0 => []
  | n + 1 =>
    let x1 := (a_inverse * (x - c)) % m
    x1 :: prev_state_generator x1 m a_inverse c n

/-- Result of `GeneratorLCGReversible.random`: a single unsigned integer
when `size` is absent, a 1-D array otherwise. -/
inductive RandOut where
  | single : Int → RandOut
  | array : List Int → RandOut
deriving DecidableEq

/-- Body of Python `GeneratorLCGReversible.random` after the increment has
been resolved to `1` or `-1` and the direction flag possibly updated.
When `size` is present the states come from the matching generator function;
committing the final state (`self._x = int(x[-1])`) raises `IndexError`
when the array is empty (`size = 0`).  An error value carries the object
state at the moment of the raise. -/
def ReversibleLCG.random_sized (g : ReversibleLCG) (increment : Int) (size : Option Nat)
    (update : Bool) : Except (String × ReversibleLCG) (RandOut × ReversibleLCG) :=
  match size with
  | none =>
    if update then
      .ok (.single g.dunder_next.1, g.dunder_next.2)
    else if increment = 1 then
      .ok (.single (Int.fdiv g.next_state (2 ^ g.d)), g)
    else
      .ok (.single (Int.fdiv g.prev_state (2 ^ g.d)), g)
  | some n =>
    let xs := if increment = 1 then next_state_generator g.x g.m g.a g.c n
              else prev_state_generator g.x g.m g.a_inverse g.c n
    if xs = [] then
      if update then .error ("IndexError", g) else .ok (.array [], g)
    else
      let g2 := if update then { g with x := xs.getLastD 0 } else g
      .ok (.array (xs.map fun v => Int.fdiv v (2 ^ g.d)), g2)

/-- Python `GeneratorLCGReversible.random(size, update, increment)`:
a missing `increment` is resolved from the direction flag; an explicit
`increment` must be `-1` or `1` (`AssertionError` otherwise, raised before
any mutation) and, with `update`, also overwrites the direction flag. -/
def ReversibleLCG.random (g : ReversibleLCG) (size : Option Nat) (update : Bool)
    (increment : Option Int) : Except (String × ReversibleLCG) (RandOut × ReversibleLCG) :=
  match increment with
  | none => g.random_sized (if g.forward then 1 else -1) size update
  | some i =>
    if i = -1 ∨ i = 1 then
      let g1 := if update then { g with forward := i == 1 } else g
      g1.random_sized i size update
    else
      .error ("`increment` must be -1, None, or 1.", g)

/-- Outputs and final generator of `n` successive scalar `next()` calls. -/
def next_calls : ReversibleLCG → Nat → List Int × ReversibleLCG
  | g, 0 => ([], g)
  | g, n + 1 =>
    let vg := g.next
    let rest := next_calls vg.2 n
    (vg.1 :: rest.1, rest.2)

/-- Outputs and final generator of `n` successive scalar `prev()` calls. -/
def prev_calls : ReversibleLCG → Nat → List Int × ReversibleLCG
  | g, 0 => ([], g)
  | g, n + 1 =>
    let vg := g.prev
    let rest := prev_calls vg.2 n
    (vg.1 :: rest.1, rest.2)

/-- One public mutating operation on a generator object. -/
inductive Op where
  | next : Op
  | prev : Op
  | rev : Op
  | random : Option Nat → Bool → Option Int → Op

/-- The generator state after an operation (for a `random` call that raises,
the state at the moment of the raise, which Python leaves in place). -/
def ReversibleLCG.apply_op (g : ReversibleLCG) : Op → ReversibleLCG
  | .next => g.next.2
  | .prev => g.prev.2
  | .rev => g.reverse
  | .random size update increment =>
    match g.random size update increment with
    | .ok (_, g2) => g2
    | .error (_, g2) => g2

/-- Sanity: the general constructor applied to the default parameters
succeeds and yields exactly `mk_default seed`. -/
theorem mk_default_init (seed : Int) :
    ReversibleLCG.init seed default_m default_a default_c default_d =
      Except.ok (mk_default seed) := rfl

/-- C1: with the default parameters (m = 2^63, a = 6364136223846793005,
c = 1442695040888963407, d = 32) and seed 42, five successive calls of
`next()` return exactly 293047021, 968358053, 1773127077, 560055359,
773728940, in that order. -/
theorem c1_default_seed42_first_five_outputs :
    (next_calls (mk_default 42) 5).1 =
      [293047021, 968358053, 1773127077, 560055359, 773728940] := by
  decide

/-- Bezout invariant of the `xgcd_x` loop: if the running coefficient pairs
represent `a` and `b` as combinations of the original inputs `a0` and `b0`,
then the value returned by the loop is the `a0`-coefficient of some
representation of `gcd a b`. -/
theorem xgcdLoop_bezout (b : Nat) :
    ∀ (a : Nat) (xp x yp y : Int) (a0 b0 : Nat),
      (a0 : Int) * xp + (b0 : Int) * yp = (a : Int) →
      (a0 : Int) * x + (b0 : Int) * y = (b : Int) →
      ∃ yf : Int, (a0 : Int) * xgcdLoop a b xp x + (b0 : Int) * yf = (Nat.gcd a b : Int) := by
  induction b using Nat.strong_induction_on with
  | _ b ih =>
    intro a xp x yp y a0 b0 h1 h2
    by_cases hb : b = 0
    · subst hb
      rw [xgcdLoop]
      simpa using ⟨yp, h1⟩
    · rw [xgcdLoop]
      simp only [hb, dite_false]
      have hgcd : Nat.gcd b (a % b) = Nat.gcd a b := by
        rw [Nat.gcd_comm a b, Nat.gcd_rec b a]
        exact (Nat.gcd_comm _ _)
      have hdm : (b : Int) * ((a / b : Nat) : Int) + ((a % b : Nat) : Int) = (a : Int) := by
        exact_mod_cast congrArg (Nat.cast : Nat → Int) (Nat.div_add_mod a b)
      have h3 : (a0 : Int) * (xp - ((a / b : Nat) : Int) * x) +
          (b0 : Int) * (yp - ((a / b : Nat) : Int) * y) = ((a % b : Nat) : Int) := by
        nlinarith [h1, h2, hdm]
      obtain ⟨yf, hyf⟩ := ih (a % b) (Nat.mod_lt _ (Nat.pos_of_ne_zero hb)) b x
        (xp - ((a / b : Nat) : Int) * x) y (yp - ((a / b : Nat) : Int) * y) a0 b0 h2 h3
      exact ⟨yf, by rw [hyf, hgcd]⟩

/-- C4: for all non-negative integers `a` and `b`, `xgcd_x a b` is an integer
`x` such that some integer `y` satisfies `a*x + b*y = gcd a b`; and the
reference value `xgcd_x 46 240 = 47` holds. -/
theorem c4_xgcd_x_bezout_and_reference :
    (∀ a b : Nat, ∃ y : Int, (a : Int) * xgcd_x a b + (b : Int) * y = (Nat.gcd a b : Int)) ∧
      xgcd_x 46 240 = 47 := by
  constructor
  · intro a b
    exact xgcdLoop_bezout b a 1 0 0 1 a b (by ring) (by ring)
  · simp [xgcd_x, xgcdLoop]

/-- On the arguments `(0, 0)` the bitwise-difference recursion used by
`Int.land` on a mixed-sign pair returns 0. -/
theorem ldiff_zero_zero : Nat.ldiff 0 0 = 0 := by
  simp [Nat.ldiff, Nat.bitwise]

/-- The bit trick accepts 0: `0 & (0 - 1) = 0 & -1 = 0`. -/
theorem is_power_of_two_zero : is_power_of_two 0 = true := by
  have h : (0 : Int) - 1 = Int.negSucc 0 := by decide
  rw [is_power_of_two, h]
  rw [show Int.land 0 (Int.negSucc 0) = ((Nat.ldiff 0 0 : Nat) : Int) from rfl]
  rw [ldiff_zero_zero]
  rfl

/-- C9: `is_power_of_two` returns `True` on 0, 1, 2, 8, 256 and `False` on
-1, 3, 9, 257; in particular 0 is accepted because the bit trick
`x & (x - 1)` evaluates to 0 at `x = 0`. -/
theorem c9_is_power_of_two_values :
    (is_power_of_two 0 = true ∧ is_power_of_two 1 = true ∧ is_power_of_two 2 = true ∧
      is_power_of_two 8 = true ∧ is_power_of_two 256 = true) ∧
    (is_power_of_two (-1) = false ∧ is_power_of_two 3 = false ∧
      is_power_of_two 9 = false ∧ is_power_of_two 257 = false) ∧
    is_power_of_two 0 = (Int.land 0 (0 - 1) == 0) := by
  refine ⟨⟨is_power_of_two_zero, by decide, by decide, by decide, by decide⟩,
    ⟨by decide, by decide, by decide, by decide⟩, rfl⟩

/-- The bit trick on naturals accepts exactly 0 and the powers of two. -/
theorem land_pred_eq_zero_iff (n : Nat) :
    n &&& (n - 1) = 0 ↔ n = 0 ∨ ∃ k : Nat, n = 2 ^ k := by
  induction n using Nat.strong_induction_on with
  | _ n ih =>
    rcases Nat.even_or_odd n with ⟨j, hj⟩ | ⟨j, hj⟩
    · rcases Nat.eq_zero_or_pos j with hj0 | hjpos
      · subst hj0
        simp [hj]
      · have hn : n = 2 * j := by omega
        have hsub : 2 * j - 1 = 2 * (j - 1) + 1 := by omega
        have hland : (2 * j) &&& (2 * j - 1) = 2 * (j &&& (j - 1)) := by
          rw [hsub]
          simpa [Nat.bit] using Nat.land_bit false j true (j - 1)
        rw [hn, hland]
        have hih := ih j (by omega)
        constructor
        · intro h
          have h1 : j &&& (j - 1) = 0 := by omega
          rcases (hih.mp h1) with h0 | ⟨k, hk⟩
          · omega
          · exact Or.inr ⟨k + 1, by rw [hk]; ring⟩
        · rintro (h0 | ⟨k, hk⟩)
          · omega
          · rcases k with _ | k'
            · omega
            · have hjk : j = 2 ^ k' := by
                have : 2 * j = 2 * 2 ^ k' := by rw [hk]; ring
                omega
              have : j &&& (j - 1) = 0 := hih.mpr (Or.inr ⟨k', hjk⟩)
              omega
    · rcases Nat.eq_zero_or_pos j with hj0 | hjpos
      · subst hj0
        have h1 : n = 1 := by omega
        rw [h1]
        exact ⟨fun _ => Or.inr ⟨0, by norm_num⟩, fun _ => by decide⟩
      · have hsub : 2 * j + 1 - 1 = 2 * j := by omega
        have hland : (2 * j + 1) &&& (2 * j) = 2 * j := by
          have := Nat.land_bit true j false j
          simpa [Nat.bit, Nat.and_self] using this
        rw [hj, hsub, hland]
        constructor
        · intro h; omega
        · rintro (h0 | ⟨k, hk⟩)
          · omega
          · rcases k with _ | k'
            · omega
            · exfalso
              have : (2 * j + 1) % 2 = 0 := by
                rw [hk, Nat.pow_succ]
                omega
              omega

/-- The Python predicate accepts exactly 0 and the (mathematical) powers of
two, over all integers. -/
theorem is_power_of_two_iff (m : Int) :
    is_power_of_two m = true ↔ m = 0 ∨ ∃ k : Nat, m = 2 ^ k := by
  cases m with
  | ofNat n =>
    rcases Nat.eq_zero_or_pos n with h0 | hpos
    · subst h0
      rw [show (Int.ofNat 0) = 0 from rfl, is_power_of_two_zero]
      simp
    · have hcast : (Int.ofNat n) - 1 = Int.ofNat (n - 1) := by
        simp only [Int.ofNat_eq_coe]; omega
      rw [is_power_of_two, hcast]
      rw [show Int.land (Int.ofNat n) (Int.ofNat (n - 1)) = Int.ofNat (n &&& (n - 1)) from rfl]
      simp only [beq_iff_eq]
      constructor
      · intro h
        have h1 : n &&& (n - 1) = 0 := by
          have h2 := h
          rw [show (Int.ofNat (n &&& (n - 1))) = ((n &&& (n - 1) : Nat) : Int) from rfl] at h2
          omega
        rcases (land_pred_eq_zero_iff n).mp h1 with hz | ⟨k, hk⟩
        · omega
        · exact Or.inr ⟨k, by rw [show (Int.ofNat n) = (n : Int) from rfl, hk]; push_cast; ring⟩
      · rintro (hz | ⟨k, hk⟩)
        · exfalso
          rw [show (Int.ofNat n) = (n : Int) from rfl] at hz
          omega
        · have hnk : n = 2 ^ k := by
            rw [show (Int.ofNat n) = (n : Int) from rfl] at hk
            have h2 : ((2 : Nat) ^ k : Int) = (2 : Int) ^ k := by push_cast; ring
            omega
          have h3 : n &&& (n - 1) = 0 := (land_pred_eq_zero_iff n).mpr (Or.inr ⟨k, hnk⟩)
          rw [show (Int.ofNat (n &&& (n - 1))) = ((n &&& (n - 1) : Nat) : Int) from rfl]
          omega
  | negSucc k =>
    rw [is_power_of_two, Int.negSucc_sub_one]
    rw [show Int.land (Int.negSucc k) (Int.negSucc (k + 1)) =
      Int.negSucc (k ||| (k + 1)) from rfl]
    simp only [beq_iff_eq]
    constructor
    · intro h
      exact absurd h (by simp)
    · rintro (h0 | ⟨j, hj⟩)
      · simp at h0
      · exfalso
        have h1 : (0 : Int) < 2 ^ j := pow_pos (by norm_num) j
        have h2 := Int.negSucc_lt_zero k
        omega

/-- C6 counterexample: at `m = 0` the constructor succeeds even though 0 is
not a power of two (the bit trick treats 0 as one). -/
theorem c6_counterexample_m_zero_accepted :
    (∃ g, ReversibleLCG.init 1 0 default_a default_c default_d = Except.ok g) ∧
      ¬ ∃ k : Nat, (0 : Int) = 2 ^ k := by
  constructor
  · exact ⟨_, by rw [ReversibleLCG.init, if_pos is_power_of_two_zero]⟩
  · rintro ⟨k, hk⟩
    have : (0 : Int) < 2 ^ k := pow_pos (by norm_num) k
    omega

/-- C6 (amended): construction fails with the configuration error exactly
when the modulus is neither 0 nor a power of two, and succeeds exactly when
it is 0 or a power of two. -/
theorem c6_amended_init_succeeds_iff (m : Int) :
    ((∃ g, ReversibleLCG.init 1 m default_a default_c default_d = Except.ok g) ↔
      (m = 0 ∨ ∃ k : Nat, m = 2 ^ k)) ∧
    ((ReversibleLCG.init 1 m default_a default_c default_d =
        Except.error "`m` must be a power of two.") ↔
      ¬(m = 0 ∨ ∃ k : Nat, m = 2 ^ k)) := by
  rw [ReversibleLCG.init]
  by_cases h : is_power_of_two m = true
  · have hm := (is_power_of_two_iff m).mp h
    rw [if_pos h]
    constructor
    · exact ⟨fun _ => hm, fun _ => ⟨_, rfl⟩⟩
    · exact ⟨fun he => absurd he (by simp), fun hn => absurd hm hn⟩
  · have hm : ¬(m = 0 ∨ ∃ k : Nat, m = 2 ^ k) := fun hc => h ((is_power_of_two_iff m).mpr hc)
    rw [if_neg h]
    constructor
    · exact ⟨fun ⟨g, hg⟩ => absurd hg (by simp), fun hc => absurd hc hm⟩
    · exact ⟨fun _ => hm, fun _ => rfl⟩

/-- Bezout identity for the default parameters: the stored backward
coefficient, with some cofactor, represents 1 as a combination of the
multiplier and the modulus (their gcd, since the multiplier is odd). -/
theorem default_bezout : ∃ y : Int, default_a * default_a_inverse + default_m * y = 1 := by
  obtain ⟨y, hy⟩ := xgcdLoop_bezout (2 ^ 63) 6364136223846793005 1 0 0 1
    6364136223846793005 (2 ^ 63) (by ring) (by ring)
  refine ⟨y, ?_⟩
  have hg : Nat.gcd 6364136223846793005 (2 ^ 63) = 1 := by decide
  rw [hg] at hy
  calc default_a * default_a_inverse + default_m * y
      = ((6364136223846793005 : Nat) : Int) * xgcdLoop 6364136223846793005 (2 ^ 63) 1 0
        + (((2 ^ 63 : Nat) : Nat) : Int) * y := by
        norm_num [default_a, default_m, default_a_inverse, get_a_inverse_value, xgcd_x]
    _ = ((1 : Nat) : Int) := hy
    _ = 1 := by norm_num

/-- The stored backward coefficient inverts the multiplier modulo the
default modulus. -/
theorem a_inverse_mul_emod :
    (default_a_inverse * default_a) % default_m = 1 % default_m := by
  obtain ⟨y, hy⟩ := default_bezout
  have h1 : default_a_inverse * default_a = 1 + default_m * (-y) := by linarith [hy]
  rw [h1, Int.add_mul_emod_self_left]

/-- C2 counterexample: with seed `2 ^ 63` (stored unmasked by the
constructor), `next()` followed by `prev()` leaves `x = 0`, not the original
`2 ^ 63`. -/
theorem c2_counterexample_seed_two_pow_63 :
    (((mk_default (2 ^ 63)).next.2).prev.2).x ≠ (mk_default (2 ^ 63)).x := by
  show (default_a_inverse * (((default_a * 2 ^ 63 + default_c) % default_m) - default_c))
      % default_m ≠ 2 ^ 63
  have h : (default_a * 2 ^ 63 + default_c) % default_m = default_c := by decide
  rw [h, sub_self, mul_zero, Int.zero_emod]
  decide

/-- C2 (amended): `next()` then `prev()` always sets the state to the
original state reduced modulo `m`; in particular it restores the state
exactly whenever the original state lay in `[0, m)`, which holds for every
state reached after at least one step. -/
theorem c2_amended_next_prev_roundtrip (seed : Int) :
    (((mk_default seed).next.2).prev.2).x = seed % default_m ∧
      (0 ≤ seed → seed < default_m → (((mk_default seed).next.2).prev.2).x = seed) := by
  have hmain : (((mk_default seed).next.2).prev.2).x = seed % default_m := by
    show (default_a_inverse * (((default_a * seed + default_c) % default_m) - default_c))
        % default_m = seed % default_m
    have h1 : (default_a * seed + default_c) % default_m - default_c ≡
        default_a * seed + default_c - default_c [ZMOD default_m] :=
      Int.ModEq.sub_right _ (Int.emod_emod_of_dvd _ dvd_rfl)
    have h2 := h1.mul_left default_a_inverse
    have e1 : default_a * seed + default_c - default_c = default_a * seed := by ring
    rw [e1] at h2
    have h3 : default_a_inverse * (default_a * seed) ≡ seed [ZMOD default_m] := by
      have h4 : default_a_inverse * default_a ≡ 1 [ZMOD default_m] := a_inverse_mul_emod
      have h5 := h4.mul_right seed
      calc default_a_inverse * (default_a * seed)
          = default_a_inverse * default_a * seed := by ring
        _ ≡ 1 * seed [ZMOD default_m] := h5
        _ = seed := by ring
    exact h2.trans h3
  exact ⟨hmain, fun h0 hlt => by rw [hmain, Int.emod_eq_of_lt h0 hlt]⟩

/-- Witness for C2 (amended) at seed 42. -/
theorem c2_amended_witness :
    (0 : Int) ≤ 42 ∧ (42 : Int) < default_m ∧
      (((mk_default 42).next.2).prev.2).x = 42 :=
  ⟨by decide, by decide,
    (c2_amended_next_prev_roundtrip 42).2 (by decide) (by decide)⟩

/-- The forward transition lands in `[0, m)` for any state, for a positive
modulus. -/
theorem next_state_range (g : ReversibleLCG) (hm : 0 < g.m) :
    0 ≤ g.next_state ∧ g.next_state < g.m :=
  ⟨Int.emod_nonneg _ (by omega), Int.emod_lt_of_pos _ hm⟩

/-- The backward transition lands in `[0, m)` for any state, for a positive
modulus. -/
theorem prev_state_range (g : ReversibleLCG) (hm : 0 < g.m) :
    0 ≤ g.prev_state ∧ g.prev_state < g.m :=
  ⟨Int.emod_nonneg _ (by omega), Int.emod_lt_of_pos _ hm⟩

/-- Every state yielded by the forward bulk generator lies in `[0, m)`. -/
theorem next_state_generator_mem (m a c : Int) (hm : 0 < m) :
    ∀ (n : Nat) (x v : Int), v ∈ next_state_generator x m a c n → 0 ≤ v ∧ v < m := by
  intro n
  induction n with
  | zero => intro x v hv; simp [next_state_generator] at hv
  | succ n ih =>
    intro x v hv
    simp only [next_state_generator, List.mem_cons] at hv
    rcases hv with h1 | h1
    · subst h1
      exact ⟨Int.emod_nonneg _ (by omega), Int.emod_lt_of_pos _ hm⟩
    · exact ih _ _ h1

/-- Every state yielded by the backward bulk generator lies in `[0, m)`. -/
theorem prev_state_generator_mem (m ai c : Int) (hm : 0 < m) :
    ∀ (n : Nat) (x v : Int), v ∈ prev_state_generator x m ai c n → 0 ≤ v ∧ v < m := by
  intro n
  induction n with
  | zero => intro x v hv; simp [prev_state_generator] at hv
  | succ n ih =>
    intro x v hv
    simp only [prev_state_generator, List.mem_cons] at hv
    rcases hv with h1 | h1
    · subst h1
      exact ⟨Int.emod_nonneg _ (by omega), Int.emod_lt_of_pos _ hm⟩
    · exact ih _ _ h1

/-- C5 counterexample: immediately after construction with seed `2 ^ 63`
(and the default parameters) the state equals `m` and is not in `[0, m)`. -/
theorem c5_counterexample_seed_outside_range :
    (mk_default (2 ^ 63)).x = default_m ∧ ¬ (mk_default (2 ^ 63)).x < default_m :=
  ⟨rfl, by decide⟩

/-- C5 (amended): masking is applied on every state transition, so the state
is in `[0, m)` after every scalar step and at every element of a bulk
generation, for every seed and every positive modulus; the constructor
itself stores the seed unmasked, so the invariant holds from the first
transition onward, not at construction. -/
theorem c5_amended_masking_every_transition (g : ReversibleLCG) (hm : 0 < g.m) :
    (0 ≤ (g.next.2).x ∧ (g.next.2).x < g.m) ∧
    (0 ≤ (g.prev.2).x ∧ (g.prev.2).x < g.m) ∧
    (∀ (n : Nat) (v : Int), v ∈ next_state_generator g.x g.m g.a g.c n → 0 ≤ v ∧ v < g.m) ∧
    (∀ (n : Nat) (v : Int), v ∈ prev_state_generator g.x g.m g.a_inverse g.c n →
      0 ≤ v ∧ v < g.m) :=
  ⟨next_state_range g hm, prev_state_range g hm,
    fun n v hv => next_state_generator_mem g.m g.a g.c hm n g.x v hv,
    fun n v hv => prev_state_generator_mem g.m g.a_inverse g.c hm n g.x v hv⟩

/-- Witness for C5 (amended) at the default generator with seed 5. -/
theorem c5_amended_witness :
    0 ≤ ((mk_default 5).next.2).x ∧ ((mk_default 5).next.2).x < (mk_default 5).m :=
  (c5_amended_masking_every_transition (mk_default 5) (by decide)).1

/-- A `random_sized` call with `update = False` always succeeds with the
generator unchanged. -/
theorem random_sized_no_update (g : ReversibleLCG) (inc : Int) (size : Option Nat) :
    ∀ r g2, g.random_sized inc size false = Except.ok (r, g2) → g2 = g := by
  intro r g2 h
  cases size with
  | none =>
    simp only [ReversibleLCG.random_sized, Bool.false_eq_true, if_false] at h
    split at h <;> exact (congrArg Prod.snd (Except.ok.inj h)).symm
  | some n =>
    simp only [ReversibleLCG.random_sized, Bool.false_eq_true, if_false] at h
    split at h <;> split at h <;> exact (congrArg Prod.snd (Except.ok.inj h)).symm

/-- A `random_sized` call with `update = False` never raises. -/
theorem random_sized_no_update_no_error (g : ReversibleLCG) (inc : Int) (size : Option Nat) :
    ∀ e g2, g.random_sized inc size false = Except.error (e, g2) → g2 = g := by
  intro e g2 h
  cases size with
  | none =>
    simp only [ReversibleLCG.random_sized, Bool.false_eq_true, if_false] at h
    split at h <;> simp at h
  | some n =>
    simp only [ReversibleLCG.random_sized, Bool.false_eq_true, if_false] at h
    split at h <;> split at h <;> simp at h

/-- A successful `random` call with `update = False` returns the generator
unchanged. -/
theorem random_no_update_ok (g : ReversibleLCG) (size : Option Nat) (inc : Option Int) :
    ∀ r g2, g.random size false inc = Except.ok (r, g2) → g2 = g := by
  intro r g2 h
  cases inc with
  | none =>
    simp only [ReversibleLCG.random] at h
    exact random_sized_no_update g _ size r g2 h
  | some i =>
    simp only [ReversibleLCG.random] at h
    by_cases hi : i = -1 ∨ i = 1
    · rw [if_pos hi] at h
      simp only [Bool.false_eq_true, if_false] at h
      exact random_sized_no_update g i size r g2 h
    · rw [if_neg hi] at h
      simp at h

/-- C7: a peek (`update = False`) never mutates the generator: whether or not
`size` is given and in either direction, a successful call returns the
generator unchanged, an immediately repeated peek returns the identical
value, and even a failed call leaves the generator unchanged. -/
theorem c7_peek_never_mutates (g : ReversibleLCG) (size : Option Nat) (inc : Option Int) :
    (∀ r g2, g.random size false inc = Except.ok (r, g2) →
      g2 = g ∧ g2.random size false inc = Except.ok (r, g2)) ∧
    (∀ e g2, g.random size false inc = Except.error (e, g2) → g2 = g) := by
  constructor
  · intro r g2 h
    have hg2 : g2 = g := random_no_update_ok g size inc r g2 h
    refine ⟨hg2, ?_⟩
    rw [hg2] at h ⊢
    exact h
  · intro e g2 h
    cases inc with
    | none =>
      simp only [ReversibleLCG.random] at h
      exact random_sized_no_update_no_error g _ size e g2 h
    | some i =>
      simp only [ReversibleLCG.random] at h
      by_cases hi : i = -1 ∨ i = 1
      · rw [if_pos hi] at h
        simp only [Bool.false_eq_true, if_false] at h
        exact random_sized_no_update_no_error g i size e g2 h
      · rw [if_neg hi] at h
        exact (congrArg Prod.snd (Except.error.inj h)).symm

/-- Witness for C7: a concrete peek with seed 42 returns the first forward
output and the unchanged generator. -/
theorem c7_witness :
    mk_default 42 = mk_default 42 ∧
      (mk_default 42).random none false (some 1) =
        Except.ok (RandOut.single 293047021, mk_default 42) :=
  (c7_peek_never_mutates (mk_default 42) none (some 1)).1
    (RandOut.single 293047021) (mk_default 42) (by rfl)

/-- C8: a `random` call with an explicit increment other than -1 or 1 fails
with the assertion error, raised before any mutation, so the returned error
state is the untouched generator. -/
theorem c8_invalid_increment_error (g : ReversibleLCG) (size : Option Nat) (update : Bool)
    (i : Int) (h1 : i ≠ -1) (h2 : i ≠ 1) :
    g.random size update (some i) =
      Except.error ("`increment` must be -1, None, or 1.", g) := by
  simp only [ReversibleLCG.random]
  rw [if_neg]
  rintro (h | h)
  · exact h1 h
  · exact h2 h

/-- Witness for C8 at increment 2. -/
theorem c8_witness :
    (mk_default 0).random none true (some 2) =
      Except.error ("`increment` must be -1, None, or 1.", mk_default 0) :=
  c8_invalid_increment_error (mk_default 0) none true 2 (by decide) (by decide)

/-- The defaulted last element of a nonempty list is a member of it. -/
theorem getLastD_mem : ∀ (l : List Int) (d : Int), l ≠ [] → l.getLastD d ∈ l
  | [], _, h => absurd rfl h
  | [a], d, _ => by simp
  | a :: b :: t, d, _ => by
    rw [List.getLastD_cons]
    exact List.mem_cons_of_mem a (getLastD_mem (b :: t) a (by simp))

/-- A successful `random_sized` call with `update = True` commits a state in
`[0, m)`, for a positive modulus. -/
theorem random_sized_update_ok_range (g : ReversibleLCG) (hm : 0 < g.m) (inc : Int)
    (size : Option Nat) :
    ∀ r g2, g.random_sized inc size true = Except.ok (r, g2) → 0 ≤ g2.x ∧ g2.x < g.m := by
  intro r g2 h
  cases size with
  | none =>
    simp only [ReversibleLCG.random_sized, if_true] at h
    have hg2 : g2 = g.dunder_next.2 := (congrArg Prod.snd (Except.ok.inj h)).symm
    rw [hg2, ReversibleLCG.dunder_next]
    by_cases hf : g.forward = true
    · rw [if_pos hf]
      exact next_state_range g hm
    · rw [if_neg hf]
      exact prev_state_range g hm
  | some n =>
    simp only [ReversibleLCG.random_sized, if_true] at h
    by_cases hinc : inc = 1
    · rw [if_pos hinc] at h
      by_cases hnil : next_state_generator g.x g.m g.a g.c n = []
      · rw [if_pos hnil] at h
        simp at h
      · rw [if_neg hnil] at h
        have hg2 : g2 = { g with x := (next_state_generator g.x g.m g.a g.c n).getLastD 0 } :=
          (congrArg Prod.snd (Except.ok.inj h)).symm
        rw [hg2]
        exact next_state_generator_mem g.m g.a g.c hm n g.x _
          (getLastD_mem _ 0 hnil)
    · rw [if_neg hinc] at h
      by_cases hnil : prev_state_generator g.x g.m g.a_inverse g.c n = []
      · rw [if_pos hnil] at h
        simp at h
      · rw [if_neg hnil] at h
        have hg2 : g2 =
            { g with x := (prev_state_generator g.x g.m g.a_inverse g.c n).getLastD 0 } :=
          (congrArg Prod.snd (Except.ok.inj h)).symm
        rw [hg2]
        exact prev_state_generator_mem g.m g.a_inverse g.c hm n g.x _
          (getLastD_mem _ 0 hnil)

/-- A successful committing `random` call leaves the state in `[0, m)`, for
a positive modulus. -/
theorem random_update_ok_range (g : ReversibleLCG) (hm : 0 < g.m) (size : Option Nat)
    (inc : Option Int) :
    ∀ r g2, g.random size true inc = Except.ok (r, g2) → 0 ≤ g2.x ∧ g2.x < g.m := by
  intro r g2 h
  cases inc with
  | none =>
    simp only [ReversibleLCG.random] at h
    exact random_sized_update_ok_range g hm _ size r g2 h
  | some i =>
    simp only [ReversibleLCG.random] at h
    by_cases hi : i = -1 ∨ i = 1
    · rw [if_pos hi] at h
      simp only [if_true] at h
      exact random_sized_update_ok_range { g with forward := i == 1 } hm i size r g2 h
    · rw [if_neg hi] at h
      simp at h

/-- Any `random` call that raises leaves the committed state `x` untouched
(an invalid increment raises before any mutation; the empty-array
`IndexError` raises after at most the direction flag was written). -/
theorem random_error_x (g : ReversibleLCG) (size : Option Nat) (update : Bool)
    (inc : Option Int) :
    ∀ e g2, g.random size update inc = Except.error (e, g2) → g2.x = g.x := by
  intro e g2 h
  have hsized : ∀ (g' : ReversibleLCG) (i : Int),
      g'.random_sized i size update = Except.error (e, g2) → g2 = g' := by
    intro g' i hs
    cases size with
    | none =>
      simp only [ReversibleLCG.random_sized] at hs
      by_cases hu : update = true
      · rw [if_pos hu] at hs
        simp at hs
      · rw [if_neg hu] at hs
        split at hs <;> simp at hs
    | some n =>
      simp only [ReversibleLCG.random_sized] at hs
      split at hs <;> split at hs <;>
        first
        | exact absurd hs (by simp)
        | (split at hs <;>
            first
            | exact (congrArg Prod.snd (Except.error.inj hs)).symm
            | exact absurd hs (by simp))
  cases inc with
  | none =>
    simp only [ReversibleLCG.random] at h
    rw [hsized g _ h]
  | some i =>
    simp only [ReversibleLCG.random] at h
    by_cases hi : i = -1 ∨ i = 1
    · rw [if_pos hi] at h
      by_cases hu : update = true
      · rw [if_pos hu] at h
        rw [hsized { g with forward := i == 1 } i h]
      · rw [if_neg hu] at h
        rw [hsized g i h]
    · rw [if_neg hi] at h
      have hg : g2 = g := (congrArg Prod.snd (Except.error.inj h)).symm
      rw [hg]

/-- After any single operation the state is either unchanged or lies in
`[0, m)`, for a positive modulus. -/
theorem apply_op_x_cases (g : ReversibleLCG) (hm : 0 < g.m) (op : Op) :
    (g.apply_op op).x = g.x ∨ (0 ≤ (g.apply_op op).x ∧ (g.apply_op op).x < g.m) := by
  cases op with
  | next => exact Or.inr (next_state_range g hm)
  | prev => exact Or.inr (prev_state_range g hm)
  | rev => exact Or.inl rfl
  | random size update inc =>
    have happ : ∀ res, g.random size update inc = res →
        g.apply_op (Op.random size update inc) =
          (match res with
           | .ok (_, g2) => g2
           | .error (_, g2) => g2) := by
      intro res hres
      simp only [ReversibleLCG.apply_op]
      rw [hres]
    rcases hres : g.random size update inc with ⟨e, g2⟩ | ⟨r, g2⟩
    · rw [happ _ hres]
      exact Or.inl (random_error_x g size update inc e g2 hres)
    · rw [happ _ hres]
      by_cases hu : update = true
      · subst hu
        exact Or.inr (random_update_ok_range g hm size inc r g2 hres)
      · have hu2 : update = false := by
          cases update
          · rfl
          · exact absurd rfl hu
        subst hu2
        exact Or.inl (congrArg ReversibleLCG.x (random_no_update_ok g size inc r g2 hres))

/-- C10: the constructor stores `x = seed` unmasked and unvalidated for
every integer seed; any scalar step and any successful committing `random`
call lands the state in `[0, m)` from any starting state; and every
operation (including peeks, direction flips and failed calls) preserves
membership of the state in `[0, m)`. -/
theorem c10_seed_unmasked_then_invariant :
    (∀ seed : Int, (mk_default seed).x = seed) ∧
    (∀ g : ReversibleLCG, 0 < g.m →
      (0 ≤ (g.next.2).x ∧ (g.next.2).x < g.m) ∧
      (0 ≤ (g.prev.2).x ∧ (g.prev.2).x < g.m) ∧
      (∀ (size : Option Nat) (inc : Option Int) (r : RandOut) (g2 : ReversibleLCG),
        g.random size true inc = Except.ok (r, g2) → 0 ≤ g2.x ∧ g2.x < g.m) ∧
      (∀ op : Op, 0 ≤ g.x ∧ g.x < g.m →
        0 ≤ (g.apply_op op).x ∧ (g.apply_op op).x < g.m)) := by
  refine ⟨fun seed => rfl, fun g hm => ⟨next_state_range g hm, prev_state_range g hm,
    fun size inc r g2 h => random_update_ok_range g hm size inc r g2 h,
    fun op hx => ?_⟩⟩
  rcases apply_op_x_cases g hm op with heq | hrange
  · rw [heq]
    exact hx
  · exact hrange

/-- Witness for C10 at seed 7: the seed is stored as-is and one forward step
lands in `[0, m)`. -/
theorem c10_witness :
    (mk_default 7).x = 7 ∧
      (0 ≤ ((mk_default 7).next.2).x ∧ ((mk_default 7).next.2).x < (mk_default 7).m) :=
  ⟨c10_seed_unmasked_then_invariant.1 7,
    (c10_seed_unmasked_then_invariant.2 (mk_default 7) (by decide)).1⟩

/-- The defaulted last element of a nonempty list does not depend on the
default. -/
theorem getLastD_eq_of_ne_nil : ∀ (l : List Int) (d1 d2 : Int), l ≠ [] →
    l.getLastD d1 = l.getLastD d2
  | [], _, _, h => absurd rfl h
  | a :: t, d1, d2, _ => by rw [List.getLastD_cons, List.getLastD_cons]

/-- `n` scalar `next()` calls produce exactly the truncations of the first
`n` states of the forward bulk generator, and end in the generator whose
state is the last of those states. -/
theorem next_calls_spec : ∀ (n : Nat) (g : ReversibleLCG),
    (next_calls g n).1 =
      (next_state_generator g.x g.m g.a g.c n).map (fun v => Int.fdiv v (2 ^ g.d)) ∧
    (next_calls g n).2 = { g with x := (next_state_generator g.x g.m g.a g.c n).getLastD g.x }
  | 0, g => ⟨rfl, rfl⟩
  | n + 1, g => by
    obtain ⟨ih1, ih2⟩ := next_calls_spec n g.next.2
    constructor
    · show g.next.1 :: (next_calls g.next.2 n).1 = _
      rw [ih1]
      rfl
    · show (next_calls g.next.2 n).2 = _
      rw [ih2]
      show ({ g with
          x := (next_state_generator g.next_state g.m g.a g.c n).getLastD g.next_state } :
            ReversibleLCG)
        = { g with x := (next_state_generator g.x g.m g.a g.c (n + 1)).getLastD g.x }
      rw [show next_state_generator g.x g.m g.a g.c (n + 1)
          = g.next_state :: next_state_generator g.next_state g.m g.a g.c n from rfl]
      rw [List.getLastD_cons]

/-- `n` scalar `prev()` calls produce exactly the truncations of the first
`n` states of the backward bulk generator, and end in the generator whose
state is the last of those states. -/
theorem prev_calls_spec : ∀ (n : Nat) (g : ReversibleLCG),
    (prev_calls g n).1 =
      (prev_state_generator g.x g.m g.a_inverse g.c n).map (fun v => Int.fdiv v (2 ^ g.d)) ∧
    (prev_calls g n).2 =
      { g with x := (prev_state_generator g.x g.m g.a_inverse g.c n).getLastD g.x }
  | 0, g => ⟨rfl, rfl⟩
  | n + 1, g => by
    obtain ⟨ih1, ih2⟩ := prev_calls_spec n g.prev.2
    constructor
    · show g.prev.1 :: (prev_calls g.prev.2 n).1 = _
      rw [ih1]
      rfl
    · show (prev_calls g.prev.2 n).2 = _
      rw [ih2]
      show ({ g with
          x := (prev_state_generator g.prev_state g.m g.a_inverse g.c n).getLastD g.prev_state } :
            ReversibleLCG)
        = { g with x := (prev_state_generator g.x g.m g.a_inverse g.c (n + 1)).getLastD g.x }
      rw [show prev_state_generator g.x g.m g.a_inverse g.c (n + 1)
          = g.prev_state :: prev_state_generator g.prev_state g.m g.a_inverse g.c n from rfl]
      rw [List.getLastD_cons]

/-- Unfolding of `random` for an explicit valid increment. -/
theorem random_some_inc (g : ReversibleLCG) (size : Option Nat) (update : Bool) (i : Int)
    (hi : i = -1 ∨ i = 1) :
    g.random size update (some i) =
      (if update then { g with forward := i == 1 } else g).random_sized i size update := by
  simp only [ReversibleLCG.random]
  rw [if_pos hi]

/-- Unfolding of `random` when no increment is given. -/
theorem random_none_eq (g : ReversibleLCG) (size : Option Nat) (update : Bool) :
    g.random size update none =
      g.random_sized (if g.forward then 1 else -1) size update := rfl

/-- Evaluation of `random_sized` on a nonempty forward bulk request. -/
theorem random_sized_bulk_next (g : ReversibleLCG) (n : Nat) (hn : 1 ≤ n) (update : Bool) :
    g.random_sized 1 (some n) update =
      Except.ok (RandOut.array
        ((next_state_generator g.x g.m g.a g.c n).map fun v => Int.fdiv v (2 ^ g.d)),
        if update then
          { g with x := (next_state_generator g.x g.m g.a g.c n).getLastD g.x }
        else g) := by
  have hnn : next_state_generator g.x g.m g.a g.c n ≠ [] := by
    obtain ⟨k, rfl⟩ : ∃ k, n = k + 1 := ⟨n - 1, by omega⟩
    simp [next_state_generator]
  simp only [ReversibleLCG.random_sized, if_true]
  rw [if_neg hnn]
  rw [getLastD_eq_of_ne_nil _ 0 g.x hnn]

/-- Evaluation of `random_sized` on a nonempty backward bulk request. -/
theorem random_sized_bulk_prev (g : ReversibleLCG) (n : Nat) (hn : 1 ≤ n) (update : Bool) :
    g.random_sized (-1) (some n) update =
      Except.ok (RandOut.array
        ((prev_state_generator g.x g.m g.a_inverse g.c n).map fun v => Int.fdiv v (2 ^ g.d)),
        if update then
          { g with x := (prev_state_generator g.x g.m g.a_inverse g.c n).getLastD g.x }
        else g) := by
  have hpn : prev_state_generator g.x g.m g.a_inverse g.c n ≠ [] := by
    obtain ⟨k, rfl⟩ : ∃ k, n = k + 1 := ⟨n - 1, by omega⟩
    simp [prev_state_generator]
  simp only [ReversibleLCG.random_sized]
  rw [if_neg (show ¬((-1 : Int) = 1) by decide)]
  rw [if_neg hpn]
  rw [getLastD_eq_of_ne_nil _ 0 g.x hpn]

/-- C3: for every count n >= 1, in both directions (explicit increment 1 or
-1, or the current direction when no increment is given), and whether or not
the state is committed, `random(size=n)` returns exactly the ordered outputs
of n successive scalar `next()` (resp. `prev()`) calls from the same state;
with `update=True` the committed generator state equals the state after the
n scalar calls (with the direction flag overwritten when an explicit
increment was passed). -/
theorem c3_bulk_equals_scalar (g : ReversibleLCG) (n : Nat) (hn : 1 ≤ n) (update : Bool) :
    (g.random (some n) update (some 1) =
      Except.ok (RandOut.array (next_calls g n).1,
        if update then { (next_calls g n).2 with forward := true } else g)) ∧
    (g.random (some n) update (some (-1)) =
      Except.ok (RandOut.array (prev_calls g n).1,
        if update then { (prev_calls g n).2 with forward := false } else g)) ∧
    (g.random (some n) update none =
      Except.ok (RandOut.array
        (if g.forward then (next_calls g n).1 else (prev_calls g n).1),
        if update then
          (if g.forward then (next_calls g n).2 else (prev_calls g n).2)
        else g)) := by
  obtain ⟨s1, s2⟩ := next_calls_spec n g
  obtain ⟨p1, p2⟩ := prev_calls_spec n g
  refine ⟨?_, ?_, ?_⟩
  · rw [random_some_inc g (some n) update 1 (Or.inr rfl)]
    cases update with
    | false =>
      rw [if_neg Bool.false_ne_true]
      rw [random_sized_bulk_next g n hn false]
      rw [s1]
      rfl
    | true =>
      rw [if_pos (show true = true from rfl)]
      rw [random_sized_bulk_next { g with forward := (1 : Int) == 1 } n hn true]
      rw [s1, s2]
      rfl
  · rw [random_some_inc g (some n) update (-1) (Or.inl rfl)]
    cases update with
    | false =>
      rw [if_neg Bool.false_ne_true]
      rw [random_sized_bulk_prev g n hn false]
      rw [p1]
      rfl
    | true =>
      rw [if_pos (show true = true from rfl)]
      rw [random_sized_bulk_prev { g with forward := (-1 : Int) == 1 } n hn true]
      rw [p1, p2]
      rfl
  · rw [random_none_eq g (some n) update]
    by_cases hf : g.forward = true
    · rw [show (if g.forward = true then (1 : Int) else -1) = 1 from if_pos hf]
      rw [random_sized_bulk_next g n hn update]
      rw [s1, s2]
      rw [if_pos hf, if_pos hf]
    · rw [show (if g.forward = true then (1 : Int) else -1) = -1 from if_neg hf]
      rw [random_sized_bulk_prev g n hn update]
      rw [p1, p2]
      rw [if_neg hf, if_neg hf]

/-- Witness for C3: the forward bulk call of size 2 from seed 42 equals the
two scalar calls. -/
theorem c3_witness :
    (mk_default 42).random (some 2) true (some 1) =
      Except.ok (RandOut.array (next_calls (mk_default 42) 2).1,
        { (next_calls (mk_default 42) 2).2 with forward := true }) := by
  have h := (c3_bulk_equals_scalar (mk_default 42) 2 (by decide) true).1
  rwa [if_pos (show (true = true) from rfl)] at h
